import Mathlib

/-!
Verification development for the UMLS relationship crawler (`app.py`).

The script crawls typed relations outward from a seed term, breadth-first and
depth-bounded, into a `networkx.DiGraph`, then lays the graph out in 3D and
serializes the edge list.  Below, the relevant parts of the script are embedded
shallowly: pure functions become Lean functions, the mutable graph/frontier
state becomes explicit state passing, and Python exceptions become `Except`.
-/

set_option autoImplicit false

namespace UmlsApp

/-- Python exceptions that the embedded code can raise. -/
inductive PyErr where
  /-- Python `AttributeError`, e.g. `None.get(...)` or `None.split(...)`. -/
  | attributeError
  /-- Python `TypeError`, e.g. `detect(None)` inside `langdetect`. -/
  | typeError
  /-- The `LangDetectException` raised by `langdetect.detect` on degenerate input. -/
  | langDetectError
deriving DecidableEq, Repr

/-- Metadata stored on one directed edge by `graph.add_edge(...)` in
`get_relations`: the formatted relation label, the related entity URI
(`info.get("relatedId")`, which may be `None`), and the discovery depth. -/
structure EdgeData where
  label : String
  uri : Option String
  depth : Nat
deriving DecidableEq, Repr

/-- One record of the relations endpoint's `"result"` array
(§6 of the external contract).  Each field is `Option` because Python's
`info.get(key)` yields `None` when the key is absent. -/
structure RelRecord where
  relatedIdName : Option String
  relationLabel : Option String
  additionalRelationLabel : Option String
  relatedId : Option String
deriving DecidableEq, Repr

/-- One record of the search endpoint's `"result"."results"` array. -/
structure SearchResult where
  name : String
  uri : String
deriving DecidableEq, Repr

/-- The external world as seen by the script: the two HTTP endpoints (keyed by
the request URL built by the code, `none` modelling a non-200 status, for which
`get_request` returns Python `None`) and the `langdetect.detect` heuristic
(`Except.error` modelling a raised `LangDetectException`). -/
structure Env where
  search : String → Option (List SearchResult)
  relations : String → Option (List RelRecord)
  detect : String → Except Unit String

/-- Python `str(x)` for an optional string (`None` prints as `"None"`),
as used by the f-string building the edge label. -/
def pyStr : Option String → String
  | none => "None"
  | some s => s

/-! ## The graph store (`networkx.DiGraph`)

A `DiGraph` is embedded as an insertion-ordered adjacency structure: the outer
list holds every node in insertion order, each with its outgoing edges in
target-insertion order.  `add_edge` on an existing (source, target) pair
overwrites the stored data in place (Python dict semantics), which is the
last-write-wins contract of §3. -/

/-- The edge store of a `networkx.DiGraph`: nodes in insertion order, each with
its ordered outgoing-edge list. -/
structure Graph where
  adj : List (String × List (String × EdgeData))
deriving DecidableEq, Repr

/-- The empty graph (`nx.DiGraph()`). -/
def Graph.empty : Graph := ⟨[]⟩

/-- Node list in insertion order (`graph.nodes()`). -/
def Graph.nodes (g : Graph) : List String := g.adj.map (fun p => p.1)

/-- Edge list with data, in iteration order (`graph.edges(data=True)`):
by source-node insertion order, then by target insertion order. -/
def Graph.edges (g : Graph) : List (String × String × EdgeData) :=
  g.adj.flatMap (fun p => p.2.map (fun q => (p.1, q.1, q.2)))

/-- Add node `n` if absent (at the end, preserving insertion order). -/
def ensureNode (g : Graph) (n : String) : Graph :=
  if g.adj.any (fun p => p.1 == n) then g else ⟨g.adj ++ [(n, [])]⟩

/-- Update key `v` in an ordered outgoing-edge list, keeping its position, or
append it: Python dict assignment semantics. -/
def setOut (outs : List (String × EdgeData)) (v : String) (d : EdgeData) :
    List (String × EdgeData) :=
  match outs with
  | [] => [(v, d)]
  | (w, e) :: rest => if w = v then (w, d) :: rest else (w, e) :: setOut rest v d

/-- The call `graph.add_edge(u, v, **data)`: insert `u` then `v` as nodes if absent,
then upsert the edge `(u, v)` with `data`. -/
def addEdge (g : Graph) (u v : String) (d : EdgeData) : Graph :=
  let g1 := ensureNode (ensureNode g u) v
  ⟨g1.adj.map (fun p => if p.1 = u then (p.1, setOut p.2 v d) else p)⟩

/-- The edge data currently stored for the ordered pair `(a, b)`, if any. -/
def lookupEdge (g : Graph) (a b : String) : Option EdgeData :=
  match g.adj.find? (fun p => p.1 == a) with
  | none => none
  | some p => (p.2.find? (fun q => q.1 == b)).map (fun q => q.2)

/-- The ordered (source, target) pairs of the graph, in edge iteration order. -/
def Graph.pairs (g : Graph) : List (String × String) :=
  g.edges.map (fun e => (e.1, e.2.1))

/-! ## URL construction and entity ids -/

/-- The expression `"+".join(term_name.split(" "))`: with an explicit single-space separator,
Python's split/join round trip is exactly a character replacement. -/
def queryTerm (term : String) : String :=
  String.mk (term.data.map (fun c => if c = ' ' then '+' else c))

/-- The search URL built by `find_uri_from_name` (the `&apiKey=` suffix that
`get_request` appends carries no information and is dropped from the key). -/
def searchUrl (term : String) : String :=
  "https://uts-ws.nlm.nih.gov/rest/search/current?string=" ++ queryTerm term

/-- The relations URL built by `get_relations`. -/
def relationsUrl (uri : String) (page : Nat) : String :=
  uri ++ "/relations?pageNumber=" ++ Nat.repr page

/-- Accumulator for the last `'/'`-separated segment of a string. -/
def lastSegAux : List Char → List Char → List Char
  | [], acc => acc
  | c :: rest, acc =>
      if c = '/' then lastSegAux rest [] else lastSegAux rest (acc ++ [c])

/-- The expression `uri.split('/')[-1]`: the entity identifier derived from a URI. -/
def entityId (uri : String) : String := String.mk (lastSegAux uri.data [])

/-! ## `get_relations` (RelationFetcher, app.py lines 39-56)

`get_request` returns the parsed JSON for a 200 response and Python `None`
otherwise; `get_relations` then iterates `json_data.get("result", [])` — on
`None` that attribute access raises `AttributeError`.  Each record's
`relatedIdName` is passed to `langdetect.detect`: a missing field means
`detect(None)`, a `TypeError`; a degenerate string makes `detect` itself
raise.  Surviving English records add one edge and one frontier child. -/

/-- The loop body of `get_relations` over the `"result"` records, threading the
graph and the accumulated `kids` list. -/
def processRecords (env : Env) (depth : Nat) (name : String) :
    List RelRecord → Graph → List (String × Option String) →
    Except PyErr (List (String × Option String) × Graph)
  | [], g, kids => .ok (kids, g)
  | r :: rest, g, kids =>
    match r.relatedIdName with
    | none => .error .typeError
    | some rname =>
      match env.detect rname with
      | .error _ => .error .langDetectError
      | .ok lang =>
        if lang = "en" then
          processRecords env depth name rest
            (addEdge g name rname
              ⟨pyStr r.relationLabel ++ "(" ++ pyStr r.additionalRelationLabel ++ ")",
               r.relatedId, depth⟩)
            (kids ++ [(rname, r.relatedId)])
        else
          processRecords env depth name rest g kids

/-- The function `get_relations(depth, name, uri, page_number, graph)`: returns the child
list for frontier expansion and the updated graph, or the raised exception. -/
def get_relations (env : Env) (depth : Nat) (name uri : String) (page : Nat)
    (g : Graph) : Except PyErr (List (String × Option String) × Graph) :=
  match env.relations (relationsUrl uri page) with
  | none => .error .attributeError
  | some records => processRecords env depth name records g []

/-! ## `find_uri_from_name` (TermResolver, app.py lines 27-37) -/

/-- The function `find_uri_from_name(term_name)`: `none` models the `(None, None)` return
(HTTP failure, missing `result`/`results`, or an empty results array). -/
def find_uri_from_name (env : Env) (term : String) : Option (String × String) :=
  match env.search (searchUrl term) with
  | none => none
  | some [] => none
  | some (r :: _) => some (r.name, r.uri)

/-! ## The crawl loop (FrontierScheduler, app.py lines 146-161)

`for _ in range(len(frontier))` snapshots the frontier length, so each depth
level processes exactly the batch present at its start; children extend the
deque on the right and form the next level's batch.  A frontier entry's URI is
`info.get("relatedId")` and may be Python `None`, in which case
`uri.split('/')` raises `AttributeError` before the guard is evaluated. -/

/-- One depth level of the `while` loop: process the starting batch, threading
the next-level frontier additions, the `expanded_uris` list and the graph.
`expanded` doubles as the log of entity ids passed to `get_relations`: the code
appends `entity_id` exactly once, immediately after each fetch. -/
def processBatch (env : Env) (maxDepth depth : Nat) :
    List (String × Option String) → List (String × Option String) →
    List String → Graph →
    Except PyErr (List (String × Option String) × List String × Graph)
  | [], acc, expanded, g => .ok (acc, expanded, g)
  | (name, ouri) :: rest, acc, expanded, g =>
    match ouri with
    | none => .error .attributeError
    | some uri =>
      let eid := entityId uri
      if depth ≤ maxDepth ∧ eid ∉ expanded then
        match get_relations env depth name uri 1 g with
        | .error e => .error e
        | .ok (kids, g') =>
            processBatch env maxDepth depth rest (acc ++ kids) (expanded ++ [eid]) g'
      else
        processBatch env maxDepth depth rest acc expanded g

/-- The loop `while depth <= max_depth`, unrolled on fuel: starting from
`depth = 0`, the loop runs exactly `maxDepth + 1` iterations, one per level. -/
def crawlGo (env : Env) (maxDepth : Nat) :
    Nat → Nat → List (String × Option String) → List String → Graph →
    Except PyErr (Graph × List String)
  | 0, _, _, expanded, g => .ok (g, expanded)
  | fuel + 1, depth, frontier, expanded, g =>
    match processBatch env maxDepth depth frontier [] expanded g with
    | .error e => .error e
    | .ok (frontier', expanded', g') =>
        crawlGo env maxDepth fuel (depth + 1) frontier' expanded' g'

/-- The crawl of `main` (lines 146-161): seed frontier, empty expanded set,
empty graph, depth 0.  Returns the final graph and the fetch log. -/
def runCrawl (env : Env) (maxDepth : Nat) (seedName seedUri : String) :
    Except PyErr (Graph × List String) :=
  crawlGo env maxDepth (maxDepth + 1) 0 [(seedName, some seedUri)] [] Graph.empty

/-- The final graph of a successful crawl (empty graph if the crawl raised);
used only to state concrete evaluations. -/
def crawlGraph (env : Env) (maxDepth : Nat) (seedName seedUri : String) : Graph :=
  match runCrawl env maxDepth seedName seedUri with
  | .ok (g, _) => g
  | .error _ => Graph.empty

/-- The body of `main` up to the crawl: resolve the term; `if name_start and uri_start`
(Python truthiness: an empty string also aborts) gates the crawl.  `none`
means the crawl never starts and `get_relations` is never invoked. -/
def run_main (env : Env) (term : String) (maxDepth : Nat) :
    Option (Except PyErr (Graph × List String)) :=
  match find_uri_from_name env term with
  | none => none
  | some (name, uri) =>
      if name = "" ∨ uri = "" then none
      else some (runCrawl env maxDepth name uri)

/-! ## LayoutEngine (`create_3d_graph`, app.py lines 58-121)

The layout calls `nx.spring_layout(graph, dim=3, seed=42)` — an external
routine over machine floats, embedded here as an abstract position oracle
`spring : Graph → Nat → String → P` taking the graph and the seed.  The code
consults the oracle only at seed `42`.  The `node_depth` dictionary is built
by one pass over `graph.edges(data=True)`: each endpoint of an edge receives
that edge's depth unless it already has an entry. -/

/-- The `node_depth` dictionary-building loop (lines 65-71), as an
insertion-ordered association list. -/
def nodeDepthFold : List (String × String × EdgeData) → List (String × Nat) →
    List (String × Nat)
  | [], m => m
  | (u, v, d) :: rest, m =>
    let m1 := if m.any (fun p => p.1 == u) then m else m ++ [(u, d.depth)]
    let m2 := if m1.any (fun p => p.1 == v) then m1 else m1 ++ [(v, d.depth)]
    nodeDepthFold rest m2

/-- The finished `node_depth` dictionary. -/
def node_depth (g : Graph) : List (String × Nat) := nodeDepthFold g.edges []

/-- The lookup `node_depth.get(node, 0)`. -/
def nodeDepthValue (g : Graph) (n : String) : Nat :=
  match (node_depth g).find? (fun p => p.1 == n) with
  | some p => p.2
  | none => 0

/-- The list `depth_values = [node_depth.get(node, 0) for node in graph.nodes()]`
(line 73): the per-node color scalars, in node order. -/
def depth_values (g : Graph) : List Nat :=
  g.nodes.map (fun n => nodeDepthValue g n)

/-- Modelled from the spec: "the minimum discovery depth among all edges
touching that node (falling back to 0 for an isolated node)" — the claimed
characterization of the depth-color value, stated for comparison with the
code's `node_depth`. -/
def minIncidentDepth (g : Graph) (n : String) : Nat :=
  match (g.edges.filter (fun e => e.1 == n || e.2.1 == n)).map
      (fun e => e.2.2.depth) with
  | [] => 0
  | d :: ds => ds.foldl Nat.min d

/-- The depth of the first edge incident to `n` in edge iteration order
(0 if none): what the `node_depth` loop actually stores. -/
def firstIncidentDepth (g : Graph) (n : String) : Nat :=
  match g.edges.find? (fun e => e.1 == n || e.2.1 == n) with
  | some e => e.2.2.depth
  | none => 0

/-- The node coordinate list of the 3D scene (lines 59-63): one position per
node in node order, all drawn from the oracle at the fixed seed `42`. -/
def create3dCoords {P : Type} (spring : Graph → Nat → String → P) (g : Graph) :
    List P :=
  g.nodes.map (spring g 42)

/-! ## Exporter (`main`, app.py lines 167-176) -/

/-- The f-string `f"{u} --> {v} (Relation: {label})"`. -/
def formatLine (u v label : String) : String :=
  u ++ " --> " ++ v ++ " (Relation: " ++ label ++ ")"

/-- The relationship listing: one line per edge in edge iteration order
(lines 167-171). -/
def relationshipLines (g : Graph) : List String :=
  g.edges.map (fun e => formatLine e.1 e.2.1 e.2.2.label)

/-- The (source, target, label) triples of the graph, in edge iteration
order. -/
def edgeTriples (g : Graph) : List (String × String × String) :=
  g.edges.map (fun e => (e.1, e.2.1, e.2.2.label))

/-- The crawl followed by export and layout: the edge set (labels and metadata
included) and the 3D coordinates, as produced by one full run. -/
def crawl_layout {P : Type} (spring : Graph → Nat → String → P) (env : Env)
    (term : String) (maxDepth : Nat) :
    Option (Except PyErr (List (String × String × EdgeData) × List P)) :=
  match run_main env term maxDepth with
  | none => none
  | some (.error e) => some (.error e)
  | some (.ok (g, _)) => some (.ok (g.edges, create3dCoords spring g))

/-! ## A parser for the relationship listing

The script never parses its own listing; the round-trip property of §8 is
about an inverse reading of the serialized lines.  Modelled from the spec:
split a line at the first `" --> "`, then at the first `" (Relation: "`, and
strip the final `")"`. -/

/-- The characters of the delimiter `" --> "`. -/
def sep1 : List Char := [' ', '-', '-', '>', ' ']

/-- The characters of the delimiter `" (Relation: "`. -/
def sep2 : List Char := [' ', '(', 'R', 'e', 'l', 'a', 't', 'i', 'o', 'n', ':', ' ']

/-- Split a character list at the first occurrence of `sep`, if any. -/
def splitOnce (sep : List Char) : List Char → Option (List Char × List Char)
  | [] => none
  | c :: rest =>
    if sep.isPrefixOf (c :: rest) then some ([], List.drop sep.length (c :: rest))
    else (splitOnce sep rest).map (fun p => (c :: p.1, p.2))

/-- Modelled from the spec: parse one listing line back into its
(source, target, label) triple, at the character level. -/
def parseLineChars (xs : List Char) : Option (List Char × List Char × List Char) :=
  match splitOnce sep1 xs with
  | none => none
  | some (src, rest) =>
    match splitOnce sep2 rest with
    | none => none
    | some (tgt, rest2) =>
      match rest2.getLast? with
      | some ')' => some (src, tgt, rest2.dropLast)
      | _ => none

/-- Modelled from the spec: parse one listing line back into its
(source, target, label) triple. -/
def parseLine (s : String) : Option (String × String × String) :=
  (parseLineChars s.data).map (fun t => (⟨t.1⟩, ⟨t.2.1⟩, ⟨t.2.2⟩))

/-! ## Structural lemmas about the graph store -/

theorem edges_ensureNode (g : Graph) (n : String) :
    (ensureNode g n).edges = g.edges := by
  unfold ensureNode
  split
  · rfl
  · simp [Graph.edges]

theorem mem_adj_ensureNode {g : Graph} {p : String × List (String × EdgeData)}
    (n : String) (h : p ∈ g.adj) : p ∈ (ensureNode g n).adj := by
  unfold ensureNode
  split
  · exact h
  · exact List.mem_append_left _ h

theorem adj_ensureNode_cases {g : Graph} {n : String}
    {p : String × List (String × EdgeData)}
    (h : p ∈ (ensureNode g n).adj) : p ∈ g.adj ∨ p = (n, []) := by
  unfold ensureNode at h
  split at h
  · exact Or.inl h
  · rcases List.mem_append.1 h with h | h
    · exact Or.inl h
    · simp only [List.mem_singleton] at h
      exact Or.inr h

theorem exists_row_ensureNode_self (g : Graph) (n : String) :
    ∃ outs, (n, outs) ∈ (ensureNode g n).adj := by
  unfold ensureNode
  split
  · rename_i h
    simp only [List.any_eq_true, beq_iff_eq] at h
    obtain ⟨p, hp, he⟩ := h
    exact ⟨p.2, by rw [← he]; exact hp⟩
  · exact ⟨[], List.mem_append_right _ (List.mem_singleton.2 rfl)⟩

theorem nodes_ensureNode_sub {g : Graph} {n m : String}
    (h : m ∈ (ensureNode g n).nodes) : m ∈ g.nodes ∨ m = n := by
  unfold ensureNode at h
  split at h
  · exact Or.inl h
  · simp only [Graph.nodes, List.map_append, List.mem_append, List.map_cons,
      List.map_nil, List.mem_singleton] at h
    rcases h with h | h
    · exact Or.inl h
    · exact Or.inr h

theorem mem_setOut {outs : List (String × EdgeData)} {v : String} {d : EdgeData}
    {q : String × EdgeData} (h : q ∈ setOut outs v d) : q ∈ outs ∨ q = (v, d) := by
  induction outs with
  | nil => exact Or.inr (by simpa [setOut] using h)
  | cons we rest ih =>
    obtain ⟨w, e⟩ := we
    unfold setOut at h
    split at h
    · rename_i hw
      rcases List.mem_cons.1 h with rfl | hm
      · exact Or.inr (by rw [hw])
      · exact Or.inl (List.mem_cons_of_mem _ hm)
    · rcases List.mem_cons.1 h with rfl | hm
      · exact Or.inl (List.mem_cons_self _ _)
      · rcases ih hm with hm' | hm'
        · exact Or.inl (List.mem_cons_of_mem _ hm')
        · exact Or.inr hm'

theorem setOut_self (outs : List (String × EdgeData)) (v : String) (d : EdgeData) :
    (v, d) ∈ setOut outs v d := by
  induction outs with
  | nil => simp [setOut]
  | cons we rest ih =>
    obtain ⟨w, e⟩ := we
    unfold setOut
    split
    · rename_i hw
      subst hw
      exact List.mem_cons_self _ _
    · exact List.mem_cons_of_mem _ ih

theorem setOut_preserve {outs : List (String × EdgeData)} {v : String}
    {d : EdgeData} {q : String × EdgeData} (h : q ∈ outs) :
    ∃ d', (q.1, d') ∈ setOut outs v d := by
  induction outs with
  | nil => cases h
  | cons we rest ih =>
    obtain ⟨w, e⟩ := we
    unfold setOut
    rcases List.mem_cons.1 h with rfl | hm
    · split
      · exact ⟨d, List.mem_cons_self _ _⟩
      · exact ⟨e, List.mem_cons_self _ _⟩
    · split
      · exact ⟨q.2, List.mem_cons_of_mem _ hm⟩
      · obtain ⟨d', hd'⟩ := ih hm
        exact ⟨d', List.mem_cons_of_mem _ hd'⟩

theorem nodes_addEdge_eq (g : Graph) (u v : String) (d : EdgeData) :
    (addEdge g u v d).nodes = (ensureNode (ensureNode g u) v).nodes := by
  unfold addEdge Graph.nodes
  rw [List.map_map]
  exact List.map_congr_left (fun p _ => by by_cases hp : p.1 = u <;> simp [hp])

theorem nodes_addEdge_sub {g : Graph} {u v m : String} {d : EdgeData}
    (h : m ∈ (addEdge g u v d).nodes) : m ∈ g.nodes ∨ m = u ∨ m = v := by
  rw [nodes_addEdge_eq] at h
  rcases nodes_ensureNode_sub h with h | h
  · rcases nodes_ensureNode_sub h with h | h
    · exact Or.inl h
    · exact Or.inr (Or.inl h)
  · exact Or.inr (Or.inr h)

theorem mem_edges_elim {g : Graph} {e : String × String × EdgeData}
    (h : e ∈ g.edges) :
    ∃ p ∈ g.adj, ∃ q ∈ p.2, e = (p.1, q.1, q.2) := by
  unfold Graph.edges at h
  obtain ⟨p, hp, hq⟩ := List.mem_flatMap.1 h
  obtain ⟨q, hq, he⟩ := List.mem_map.1 hq
  exact ⟨p, hp, q, hq, he.symm⟩

theorem mem_edges_intro {g : Graph} {p : String × List (String × EdgeData)}
    {q : String × EdgeData} (hp : p ∈ g.adj) (hq : q ∈ p.2) :
    (p.1, q.1, q.2) ∈ g.edges := by
  unfold Graph.edges
  exact List.mem_flatMap.2 ⟨p, hp, List.mem_map.2 ⟨q, hq, rfl⟩⟩

theorem mem_edges_addEdge {g : Graph} {u v : String} {d : EdgeData}
    {e : String × String × EdgeData} (h : e ∈ (addEdge g u v d).edges) :
    e ∈ g.edges ∨ e = (u, v, d) := by
  obtain ⟨row, hrow, q, hq, rfl⟩ := mem_edges_elim h
  unfold addEdge at hrow
  obtain ⟨p, hp, hfp⟩ := List.mem_map.1 hrow
  by_cases hu : p.1 = u
  · rw [if_pos hu] at hfp
    subst hfp
    rcases mem_setOut hq with hq' | hq'
    · rcases adj_ensureNode_cases hp with hp' | hp'
      · rcases adj_ensureNode_cases hp' with hp'' | hp''
        · exact Or.inl (mem_edges_intro (p := p) hp'' hq')
        · rw [hp''] at hq'
          cases hq'
      · rw [hp'] at hq'
        cases hq'
    · right
      rw [hq', hu]
  · rw [if_neg hu] at hfp
    subst hfp
    rcases adj_ensureNode_cases hp with hp' | hp'
    · rcases adj_ensureNode_cases hp' with hp'' | hp''
      · exact Or.inl (mem_edges_intro hp'' hq)
      · rw [hp''] at hq
        cases hq
    · rw [hp'] at hq
      cases hq

theorem addEdge_self_mem (g : Graph) (u v : String) (d : EdgeData) :
    (u, v, d) ∈ (addEdge g u v d).edges := by
  obtain ⟨outs, houts⟩ := exists_row_ensureNode_self g u
  have houts' : (u, outs) ∈ (ensureNode (ensureNode g u) v).adj :=
    mem_adj_ensureNode v houts
  have hrow : (u, setOut outs v d) ∈ (addEdge g u v d).adj := by
    unfold addEdge
    exact List.mem_map.2 ⟨(u, outs), houts', by simp⟩
  exact mem_edges_intro hrow (setOut_self outs v d)

theorem edges_addEdge_preserve {g : Graph} {u v : String} {d : EdgeData}
    {e : String × String × EdgeData} (h : e ∈ g.edges) :
    ∃ d', (e.1, e.2.1, d') ∈ (addEdge g u v d).edges := by
  obtain ⟨p, hp, q, hq, rfl⟩ := mem_edges_elim h
  have hp1 : p ∈ (ensureNode (ensureNode g u) v).adj :=
    mem_adj_ensureNode v (mem_adj_ensureNode u hp)
  by_cases hu : p.1 = u
  · obtain ⟨d', hd'⟩ := setOut_preserve (v := v) (d := d) hq
    have hrow : (p.1, setOut p.2 v d) ∈ (addEdge g u v d).adj := by
      unfold addEdge
      exact List.mem_map.2 ⟨p, hp1, by rw [if_pos hu]⟩
    exact ⟨d', mem_edges_intro hrow hd'⟩
  · have hrow : p ∈ (addEdge g u v d).adj := by
      unfold addEdge
      exact List.mem_map.2 ⟨p, hp1, by rw [if_neg hu]⟩
    exact ⟨q.2, mem_edges_intro hrow hq⟩

/-! ## Preservation of graph properties along the crawl

The only graph mutation anywhere in the crawl is the `addEdge` call inside
`get_relations`, always with the current depth, and only under the frontier
guard `depth ≤ max_depth`.  Any graph property preserved by such calls is an
invariant of the whole crawl. -/

theorem processRecords_preserve {Q : Graph → Prop} {env : Env} {dep : Nat}
    {name : String} {recs : List RelRecord} {g : Graph}
    {kids ks : List (String × Option String)} {g' : Graph}
    (hQ : ∀ g2 rname lbl uo, Q g2 → Q (addEdge g2 name rname ⟨lbl, uo, dep⟩))
    (h : processRecords env dep name recs g kids = .ok (ks, g'))
    (hg : Q g) : Q g' := by
  induction recs generalizing g kids with
  | nil =>
    simp only [processRecords, Except.ok.injEq, Prod.mk.injEq] at h
    rw [← h.2]
    exact hg
  | cons r rest ih =>
    simp only [processRecords] at h
    split at h
    · simp at h
    · rename_i rname hrn
      split at h
      · simp at h
      · rename_i lang hl
        split at h
        · exact ih h (hQ g rname _ _ hg)
        · exact ih h hg

theorem get_relations_preserve {Q : Graph → Prop} {env : Env} {dep : Nat}
    {name uri : String} {page : Nat} {g : Graph}
    {kids : List (String × Option String)} {g' : Graph}
    (hQ : ∀ g2 rname lbl uo, Q g2 → Q (addEdge g2 name rname ⟨lbl, uo, dep⟩))
    (h : get_relations env dep name uri page g = .ok (kids, g'))
    (hg : Q g) : Q g' := by
  unfold get_relations at h
  split at h
  · simp at h
  · exact processRecords_preserve hQ h hg

theorem processBatch_preserve {Q : Graph → Prop} {env : Env} {maxD dep : Nat}
    {batch acc : List (String × Option String)} {exp : List String} {g : Graph}
    {fr' : List (String × Option String)} {exp' : List String} {g' : Graph}
    (hQ : ∀ g2 nm rname lbl uo, dep ≤ maxD →
      Q g2 → Q (addEdge g2 nm rname ⟨lbl, uo, dep⟩))
    (h : processBatch env maxD dep batch acc exp g = .ok (fr', exp', g'))
    (hg : Q g) : Q g' := by
  induction batch generalizing acc exp g with
  | nil =>
    simp only [processBatch, Except.ok.injEq, Prod.mk.injEq] at h
    rw [← h.2.2]
    exact hg
  | cons entry rest ih =>
    obtain ⟨name, ouri⟩ := entry
    simp only [processBatch] at h
    split at h
    · simp at h
    · rename_i uri
      split at h
      · rename_i hguard
        split at h
        · simp at h
        · rename_i kids g2 hgr
          exact ih h
            (get_relations_preserve (fun g3 rn l uo => hQ g3 name rn l uo hguard.1)
              hgr hg)
      · exact ih h hg

theorem crawlGo_preserve {Q : Graph → Prop} {env : Env} {maxD : Nat}
    {fuel dep : Nat} {frontier : List (String × Option String)}
    {exp : List String} {g g' : Graph} {exp' : List String}
    (hQ : ∀ g2 nm rname lbl uo d, d ≤ maxD →
      Q g2 → Q (addEdge g2 nm rname ⟨lbl, uo, d⟩))
    (h : crawlGo env maxD fuel dep frontier exp g = .ok (g', exp'))
    (hg : Q g) : Q g' := by
  induction fuel generalizing dep frontier exp g with
  | zero =>
    simp only [crawlGo, Except.ok.injEq, Prod.mk.injEq] at h
    rw [← h.1]
    exact hg
  | succ n ih =>
    simp only [crawlGo] at h
    split at h
    · simp at h
    · rename_i fr2 exp2 g2 hpb
      exact ih h
        (processBatch_preserve (fun g3 nm rn l uo hd => hQ g3 nm rn l uo dep hd)
          hpb hg)

theorem runCrawl_preserve {Q : Graph → Prop} {env : Env} {maxD : Nat}
    {sn su : String} {g : Graph} {exp : List String}
    (hQ : ∀ g2 nm rname lbl uo d, d ≤ maxD →
      Q g2 → Q (addEdge g2 nm rname ⟨lbl, uo, d⟩))
    (h : runCrawl env maxD sn su = .ok (g, exp))
    (hempty : Q Graph.empty) : Q g := by
  unfold runCrawl at h
  exact crawlGo_preserve hQ h hempty

/-! ## Expanded-id bookkeeping (for the single-expansion invariant) -/

theorem processBatch_expanded_nodup {env : Env} {maxD dep : Nat}
    {batch acc : List (String × Option String)} {exp : List String} {g : Graph}
    {fr' : List (String × Option String)} {exp' : List String} {g' : Graph}
    (h : processBatch env maxD dep batch acc exp g = .ok (fr', exp', g'))
    (hexp : exp.Nodup) : exp'.Nodup := by
  induction batch generalizing acc exp g with
  | nil =>
    simp only [processBatch, Except.ok.injEq, Prod.mk.injEq] at h
    rw [← h.2.1]
    exact hexp
  | cons entry rest ih =>
    obtain ⟨name, ouri⟩ := entry
    simp only [processBatch] at h
    split at h
    · simp at h
    · rename_i uri
      split at h
      · rename_i hguard
        split at h
        · simp at h
        · rename_i kids g2 hgr
          refine ih h (List.nodup_append.2 ⟨hexp, List.nodup_singleton _, ?_⟩)
          intro a ha hb
          rw [List.mem_singleton.1 hb] at ha
          exact hguard.2 ha
      · exact ih h hexp

theorem crawlGo_expanded_nodup {env : Env} {maxD : Nat} {fuel dep : Nat}
    {frontier : List (String × Option String)} {exp : List String}
    {g g' : Graph} {exp' : List String}
    (h : crawlGo env maxD fuel dep frontier exp g = .ok (g', exp'))
    (hexp : exp.Nodup) : exp'.Nodup := by
  induction fuel generalizing dep frontier exp g with
  | zero =>
    simp only [crawlGo, Except.ok.injEq, Prod.mk.injEq] at h
    rw [← h.2]
    exact hexp
  | succ n ih =>
    simp only [crawlGo] at h
    split at h
    · simp at h
    · rename_i fr2 exp2 g2 hpb
      exact ih h (processBatch_expanded_nodup hpb hexp)

/-! ## Incidence: every node of the graph touches an edge -/

/-- Node `n` is an endpoint of some edge of `g`. -/
def Incident (g : Graph) (n : String) : Prop :=
  ∃ e ∈ g.edges, e.1 = n ∨ e.2.1 = n

theorem incident_addEdge {g : Graph} {u v : String} {d : EdgeData} {n : String}
    (h : Incident g n) : Incident (addEdge g u v d) n := by
  obtain ⟨e, he, hn⟩ := h
  obtain ⟨d', hd'⟩ := edges_addEdge_preserve (u := u) (v := v) (d := d) he
  exact ⟨(e.1, e.2.1, d'), hd', hn⟩

theorem inv_incident_addEdge {g : Graph} {u v : String} {d : EdgeData}
    (h : ∀ n ∈ g.nodes, Incident g n) :
    ∀ n ∈ (addEdge g u v d).nodes, Incident (addEdge g u v d) n := by
  intro n hn
  rcases nodes_addEdge_sub hn with h' | h' | h'
  · exact incident_addEdge (h n h')
  · exact ⟨(u, v, d), addEdge_self_mem g u v d, Or.inl h'.symm⟩
  · exact ⟨(u, v, d), addEdge_self_mem g u v d, Or.inr h'.symm⟩

/-! ## Test environments

Concrete service behaviours used to evaluate the embedded code at specific
inputs: a one-edge happy path, an HTTP failure, degenerate relation records,
a multi-path crawl, and listing-delimiter collisions. -/

/-- One seed, one English relation, everything well-behaved. -/
def envA : Env :=
  { search := fun _ => some [⟨"S", "r/s"⟩],
    relations := fun url =>
      if url = "r/s/relations?pageNumber=1" then
        some [⟨some "B", some "related_to", some "", some "r/b"⟩]
      else some [],
    detect := fun _ => .ok "en" }

/-- The graph produced by `envA` at `max_depth = 0`. -/
def graphA : Graph :=
  ⟨[("S", [("B", ⟨"related_to()", some "r/b", 0⟩)]), ("B", [])]⟩

/-- Every relations call answers with a non-success HTTP status. -/
def envHttpFail : Env :=
  { search := fun _ => none, relations := fun _ => none,
    detect := fun _ => .ok "en" }

/-- The relations page contains a record with no `relatedIdName` field. -/
def envNoName : Env :=
  { search := fun _ => none,
    relations := fun _ => some [⟨none, some "rl", some "", some "r/x"⟩],
    detect := fun _ => .ok "en" }

/-- The relations page contains a record whose name is the empty string, on
which language identification raises (as `langdetect` does). -/
def envEmptyName : Env :=
  { search := fun _ => none,
    relations := fun _ => some [⟨some "", some "rl", some "", some "r/x"⟩],
    detect := fun s => if s = "" then .error () else .ok "en" }

/-- Every related name fails the English check, so every record is dropped. -/
def envAllForeign : Env :=
  { search := fun _ => none,
    relations := fun _ => some [⟨some "B", some "rl", some "", some "r/b"⟩],
    detect := fun _ => .ok "fr" }

/-- A crawl in which node name `Q` is reachable under two distinct entity ids
(`q1` at depth 0 and `q2` at depth 2), so `Q` is expanded twice and its second
expansion records the edge `Q → U` at depth 3, after `P → U` at depth 1. -/
def envMulti : Env :=
  { search := fun _ => none,
    relations := fun url =>
      if url = "r/s/relations?pageNumber=1" then
        some [⟨some "Q", some "rq", some "", some "r/q1"⟩,
              ⟨some "P", some "rp", some "", some "r/p1"⟩]
      else if url = "r/q1/relations?pageNumber=1" then
        some [⟨some "B", some "rb", some "", some "r/b1"⟩]
      else if url = "r/p1/relations?pageNumber=1" then
        some [⟨some "U", some "ru", some "", some "r/u1"⟩]
      else if url = "r/b1/relations?pageNumber=1" then
        some [⟨some "Q", some "rq2", some "", some "r/q2"⟩]
      else if url = "r/q2/relations?pageNumber=1" then
        some [⟨some "U", some "ru2", some "", some "r/u1"⟩]
      else some [],
    detect := fun _ => .ok "en" }

/-- One relation whose related name is an ordinary string. -/
def envPlainChild : Env :=
  { search := fun _ => none,
    relations := fun url =>
      if url = "r/x/relations?pageNumber=1" then
        some [⟨some "C", some "related_to", some "", some "r/c"⟩]
      else some [],
    detect := fun _ => .ok "en" }

/-- One relation whose related name itself contains the listing delimiter
`" --> "`. -/
def envArrowChild : Env :=
  { search := fun _ => none,
    relations := fun url =>
      if url = "r/x/relations?pageNumber=1" then
        some [⟨some "B --> C", some "related_to", some "", some "r/c"⟩]
      else some [],
    detect := fun _ => .ok "en" }

/-! ## Claims C1, C2: error handling inside the relation fetch -/

/-- C1 (code_bug evidence): the spec says a non-success HTTP status on the
relations call yields an empty child list and the crawl proceeds.  In the
code, `get_request` returns `None` for a non-200 response, and `get_relations`
then evaluates `json_data.get("result", [])` on it, raising `AttributeError`:
the fetch crashes and the crash aborts the whole crawl. -/
theorem claim1_http_error_crashes_fetch :
    get_relations envHttpFail 0 "S" "r/s" 1 Graph.empty = .error .attributeError ∧
    runCrawl envHttpFail 3 "S" "r/s" = .error .attributeError :=
  ⟨rfl, rfl⟩

/-- C2 (code_bug evidence): the spec says a record whose related-name string
is missing or degenerate is excluded and the fetch completes.  In the code,
`detect(info.get("relatedIdName"))` is unguarded: a missing name calls
`detect(None)` (a `TypeError`), and an empty name makes `langdetect` raise;
either way the exception propagates out of `get_relations`. -/
theorem claim2_language_check_crashes_fetch :
    get_relations envNoName 0 "S" "r/s" 1 Graph.empty = .error .typeError ∧
    get_relations envEmptyName 0 "S" "r/s" 1 Graph.empty =
      .error .langDetectError :=
  ⟨rfl, rfl⟩

/-! ## Claim C4: the depth bound on recorded edges -/

/-- C4: for every `max_depth ≥ 0` and every crawl run to completion, every
edge present in the final graph carries a depth value at most `max_depth`. -/
theorem claim4_edge_depth_le_maxdepth (env : Env) (maxD : Nat)
    (sn su : String) (g : Graph) (exp : List String)
    (h : runCrawl env maxD sn su = .ok (g, exp)) :
    ∀ e ∈ g.edges, e.2.2.depth ≤ maxD := by
  refine runCrawl_preserve (Q := fun g2 => ∀ e ∈ g2.edges, e.2.2.depth ≤ maxD)
    ?_ h ?_
  · intro g2 nm rname lbl uo d hd hall e he
    rcases mem_edges_addEdge he with he' | he'
    · exact hall e he'
    · rw [he']
      exact hd
  · intro e he
    cases he

/-- C4 witness: a concrete completed crawl (`envA`, `max_depth = 0`) whose one
recorded edge satisfies the bound. -/
theorem claim4_witness :
    (("S", "B", (⟨"related_to()", some "r/b", 0⟩ : EdgeData)) :
      String × String × EdgeData).2.2.depth ≤ 0 :=
  claim4_edge_depth_le_maxdepth envA 0 "S" "r/s" graphA ["s"] rfl
    ("S", "B", ⟨"related_to()", some "r/b", 0⟩) (by decide)

/-! ## Claim C5: each entity id expanded at most once -/

/-- C5: in every crawl run to completion, the list of entity ids passed to
`get_relations` (the `expanded_uris` list, appended exactly once per fetch)
contains no duplicates: no id is fetched twice, however often a node with
that id is re-enqueued. -/
theorem claim5_expanded_ids_nodup (env : Env) (maxD : Nat) (sn su : String)
    (g : Graph) (exp : List String)
    (h : runCrawl env maxD sn su = .ok (g, exp)) : exp.Nodup := by
  unfold runCrawl at h
  exact crawlGo_expanded_nodup h (List.nodup_nil)

/-- C5 witness: the multi-path crawl of `envMulti` fetches the six distinct
ids `s, q1, p1, b1, u1, q2` exactly once each. -/
theorem claim5_witness : (["s", "q1", "p1", "b1", "u1", "q2"] :
    List String).Nodup :=
  claim5_expanded_ids_nodup envMulti 3 "S" "r/s"
    (crawlGraph envMulti 3 "S" "r/s") ["s", "q1", "p1", "b1", "u1", "q2"] rfl

/-! ## Claim C10: no isolated nodes; an all-filtered run yields nothing -/

/-- C10: in every completed crawl, every node of the final graph is an
endpoint of at least one edge; consequently, if no relation record survives
filtering during the entire run (no edges), the graph has no nodes at all —
the seed does not appear — and the relationship listing is empty. -/
theorem claim10_no_isolated_nodes (env : Env) (maxD : Nat) (sn su : String)
    (g : Graph) (exp : List String)
    (h : runCrawl env maxD sn su = .ok (g, exp)) :
    (∀ n ∈ g.nodes, Incident g n) ∧
      (g.edges = [] → g.nodes = [] ∧ relationshipLines g = []) := by
  have hinv : ∀ n ∈ g.nodes, Incident g n := by
    refine runCrawl_preserve (Q := fun g2 => ∀ n ∈ g2.nodes, Incident g2 n)
      ?_ h ?_
    · intro g2 nm rname lbl uo d _ hall
      exact inv_incident_addEdge hall
    · intro n hn
      cases hn
  refine ⟨hinv, fun hedges => ⟨?_, ?_⟩⟩
  · rw [List.eq_nil_iff_forall_not_mem]
    intro n hn
    obtain ⟨e, he, _⟩ := hinv n hn
    rw [hedges] at he
    cases he
  · unfold relationshipLines
    rw [hedges]
    rfl

/-- C10 witness: in the all-filtered run of `envAllForeign` (the seed is
expanded but every record fails the language check) the final graph has no
nodes and the listing is empty. -/
theorem claim10_witness : Graph.nodes ⟨[]⟩ = [] ∧ relationshipLines ⟨[]⟩ = [] :=
  (claim10_no_isolated_nodes envAllForeign 1 "S" "r/s" ⟨[]⟩ ["s"] rfl).2 rfl

/-! ## Claim C9: an unresolvable term aborts before any fetch -/

/-- A search service that answers every query with an empty results array. -/
def envNoResults : Env :=
  { search := fun _ => some [], relations := fun _ => some [],
    detect := fun _ => .ok "en" }

/-- C9: when the search call fails or returns an empty results array, term
resolution returns no (name, URI) pair and `main` never starts the crawl, so
`get_relations` is never invoked — the conclusion holds for every `relations`
and `detect` behaviour, showing the fetch plays no part. -/
theorem claim9_empty_search_aborts (env : Env) (term : String) (maxD : Nat)
    (h : env.search (searchUrl term) = none ∨
      env.search (searchUrl term) = some []) :
    find_uri_from_name env term = none ∧ run_main env term maxD = none := by
  have hf : find_uri_from_name env term = none := by
    unfold find_uri_from_name
    rcases h with h | h <;> rw [h]
  refine ⟨hf, ?_⟩
  unfold run_main
  rw [hf]

/-- C9 witness: a concrete empty-results search aborts the crawl. -/
theorem claim9_witness :
    find_uri_from_name envNoResults "Myocardial infarction" = none ∧
    run_main envNoResults "Myocardial infarction" 3 = none :=
  claim9_empty_search_aborts envNoResults "Myocardial infarction" 3 (Or.inr rfl)

/-! ## Claim C7: determinism of crawl plus layout -/

/-- C7: for a fixed `max_depth` and fixed service responses, two runs of the
crawl-and-layout pipeline agree edge-for-edge (labels and metadata included)
and coordinate-for-coordinate, provided only that the two position oracles
agree at the fixed seed `42` — the single seed the code ever passes to
`nx.spring_layout`; their behaviour at every other seed is irrelevant. -/
theorem claim7_deterministic_given_seed {P : Type}
    (spring1 spring2 : Graph → Nat → String → P) (env : Env) (term : String)
    (maxD : Nat) (hseed : ∀ g, spring1 g 42 = spring2 g 42) :
    crawl_layout spring1 env term maxD = crawl_layout spring2 env term maxD := by
  unfold crawl_layout
  cases hrm : run_main env term maxD with
  | none => rfl
  | some r =>
    cases r with
    | error e => rfl
    | ok p =>
      obtain ⟨g, exp⟩ := p
      simp only [create3dCoords, hseed g]

/-- C7 witness: two oracles that differ away from seed 42 but agree at 42
yield identical pipeline output on a concrete run. -/
theorem claim7_witness :
    crawl_layout (P := Nat) (fun _ _ _ => 0) envA "term" 0 =
      crawl_layout (fun _ n _ => n - 42) envA "term" 0 :=
  claim7_deterministic_given_seed (fun _ _ _ => 0) (fun _ n _ => n - 42)
    envA "term" 0 (fun _ => funext fun _ => rfl)

/-! ## Claim C3: what the `node_depth` loop computes

The dictionary loop keeps the FIRST depth seen for each endpoint in edge
iteration order; entries are only ever appended, never updated. -/

theorem find?_append_some {m : List (String × Nat)} {n : String}
    {q : String × Nat} (tail : List (String × Nat))
    (h : m.find? (fun p => p.1 == n) = some q) :
    (m ++ tail).find? (fun p => p.1 == n) = some q := by
  rw [List.find?_append, h]
  rfl

theorem find?_nodeDepthFold_some {es : List (String × String × EdgeData)}
    {m : List (String × Nat)} {n : String} {q : String × Nat}
    (h : m.find? (fun p => p.1 == n) = some q) :
    (nodeDepthFold es m).find? (fun p => p.1 == n) = some q := by
  induction es generalizing m with
  | nil => exact h
  | cons e rest ih =>
    obtain ⟨u, v, d⟩ := e
    simp only [nodeDepthFold]
    apply ih
    split
    · split
      · exact h
      · exact find?_append_some _ h
    · split
      · exact find?_append_some _ h
      · exact find?_append_some _ (find?_append_some _ h)

theorem any_key_eq_false {m : List (String × Nat)} {n : String}
    (h : m.find? (fun p => p.1 == n) = none) :
    m.any (fun p => p.1 == n) = false := by
  rw [← Bool.not_eq_true, List.any_eq_true]
  rintro ⟨p, hp, hpn⟩
  exact List.find?_eq_none.1 h p hp hpn

theorem find?_append_singleton_ne {m : List (String × Nat)} {n k : String}
    {x : Nat} (h : m.find? (fun p => p.1 == n) = none) (hk : ¬ k = n) :
    (m ++ [(k, x)]).find? (fun p => p.1 == n) = none := by
  rw [List.find?_append, h]
  simp [hk]

theorem find?_if_append_some {m : List (String × Nat)} {n : String}
    {q : String × Nat} (c : Bool) (entry : String × Nat)
    (h : m.find? (fun p => p.1 == n) = some q) :
    (if c = true then m else m ++ [entry]).find? (fun p => p.1 == n) = some q := by
  split
  · exact h
  · exact find?_append_some _ h

theorem find?_if_append_none {m : List (String × Nat)} {n k : String} {x : Nat}
    (c : Bool) (h : m.find? (fun p => p.1 == n) = none) (hk : ¬ k = n) :
    (if c = true then m else m ++ [(k, x)]).find? (fun p => p.1 == n) = none := by
  split
  · exact h
  · exact find?_append_singleton_ne h hk

theorem find?_nodeDepthFold_none {es : List (String × String × EdgeData)}
    {m : List (String × Nat)} {n : String}
    (h : m.find? (fun p => p.1 == n) = none) :
    (nodeDepthFold es m).find? (fun p => p.1 == n) =
      (es.find? (fun e => e.1 == n || e.2.1 == n)).map
        (fun e => (n, e.2.2.depth)) := by
  induction es generalizing m with
  | nil => simpa using h
  | cons e rest ih =>
    obtain ⟨u, v, d⟩ := e
    simp only [nodeDepthFold]
    by_cases hun : u = n
    · subst hun
      rw [List.find?_cons_of_pos _ (by simp)]
      rw [any_key_eq_false h, if_neg Bool.false_ne_true]
      have hm1 : (m ++ [(u, d.depth)]).find? (fun p => p.1 == u) =
          some (u, d.depth) := by
        rw [List.find?_append, h]
        simp
      exact find?_nodeDepthFold_some (find?_if_append_some _ _ hm1)
    · have hm1 : (if m.any (fun p => p.1 == u) = true then m
          else m ++ [(u, d.depth)]).find? (fun p => p.1 == n) = none :=
        find?_if_append_none _ h hun
      by_cases hvn : v = n
      · subst hvn
        rw [List.find?_cons_of_pos _ (by simp)]
        rw [any_key_eq_false hm1, if_neg Bool.false_ne_true]
        have hm2 : ((if m.any (fun p => p.1 == u) = true then m
            else m ++ [(u, d.depth)]) ++ [(v, d.depth)]).find?
              (fun p => p.1 == v) = some (v, d.depth) := by
          rw [List.find?_append, hm1]
          simp
        exact find?_nodeDepthFold_some hm2
      · rw [List.find?_cons_of_neg _ (by simp [hun, hvn])]
        exact ih (find?_if_append_none _ hm1 hvn)

theorem nodeDepthValue_eq_firstIncidentDepth (g : Graph) (n : String) :
    nodeDepthValue g n = firstIncidentDepth g n := by
  unfold nodeDepthValue firstIncidentDepth node_depth
  rw [find?_nodeDepthFold_none (by rfl)]
  cases g.edges.find? (fun e => e.1 == n || e.2.1 == n) <;> rfl

/-- C3 (amended): the depth-color value the layout assigns to a node equals
the depth metadata of the FIRST edge incident to that node in the graph's
edge iteration order (0 for a node incident to no edge), which is not always
the minimum over all incident edges. -/
theorem claim3_first_incident_depth (g : Graph) :
    depth_values g = g.nodes.map (fun n => firstIncidentDepth g n) := by
  unfold depth_values
  exact List.map_congr_left fun n _ => nodeDepthValue_eq_firstIncidentDepth g n

/-- C3 counterexample: in the completed crawl of `envMulti`, node `"U"` has
incident edges of depths 3 (first in iteration order, from the re-expansion
of `"Q"` under a second entity id) and 1, so the layout assigns it
depth-color 3 while the minimum incident depth is 1. -/
theorem claim3_counterexample :
    nodeDepthValue (crawlGraph envMulti 3 "S" "r/s") "U" = 3 ∧
    minIncidentDepth (crawlGraph envMulti 3 "S" "r/s") "U" = 1 ∧
    depth_values (crawlGraph envMulti 3 "S" "r/s") ≠
      (crawlGraph envMulti 3 "S" "r/s").nodes.map
        (fun n => minIncidentDepth (crawlGraph envMulti 3 "S" "r/s") n) := by
  refine ⟨rfl, rfl, ?_⟩
  decide

/-! ## Claim C6: one edge per ordered pair, last write wins

Well-formedness of the adjacency structure (distinct node rows, distinct
targets within a row) is an `addEdge` invariant; it makes the ordered
(source, target) pairs of the edge list pairwise distinct.  `setOut` updating
in place gives the last-write-wins contract. -/

/-- Distinct node rows and distinct target keys within each row. -/
def WF (g : Graph) : Prop :=
  g.nodes.Nodup ∧ ∀ p ∈ g.adj, (p.2.map (fun q => q.1)).Nodup

theorem wf_empty : WF Graph.empty := by
  constructor
  · exact List.nodup_nil
  · intro p hp
    cases hp

theorem wf_ensureNode {g : Graph} (n : String) (h : WF g) : WF (ensureNode g n) := by
  unfold ensureNode
  split
  · exact h
  · rename_i hany
    constructor
    · simp only [Graph.nodes, List.map_append, List.map_cons, List.map_nil]
      rw [List.nodup_append]
      refine ⟨h.1, List.nodup_singleton _, ?_⟩
      intro a ha hb
      rw [List.mem_singleton.1 hb] at ha
      apply hany
      rw [List.any_eq_true]
      obtain ⟨p, hp, hpe⟩ := List.mem_map.1 ha
      exact ⟨p, hp, by simp [hpe]⟩
    · intro p hp
      rcases List.mem_append.1 hp with hp | hp
      · exact h.2 p hp
      · rw [List.mem_singleton.1 hp]
        exact List.nodup_nil

theorem keys_setOut (outs : List (String × EdgeData)) (v : String) (d : EdgeData) :
    (setOut outs v d).map (fun q => q.1) =
      if v ∈ outs.map (fun q => q.1) then outs.map (fun q => q.1)
      else outs.map (fun q => q.1) ++ [v] := by
  induction outs with
  | nil => simp [setOut]
  | cons we rest ih =>
    obtain ⟨w, e⟩ := we
    by_cases hw : w = v
    · subst hw
      simp [setOut]
    · unfold setOut
      rw [if_neg hw]
      simp only [List.map_cons]
      rw [ih]
      by_cases hv : v ∈ rest.map (fun q => q.1)
      · rw [if_pos hv, if_pos (List.mem_cons_of_mem _ hv)]
      · have hnv : v ∉ w :: rest.map (fun q => q.1) := by
          intro hc
          rcases List.mem_cons.1 hc with hc | hc
          · exact hw hc.symm
          · exact hv hc
        rw [if_neg hv, if_neg hnv, List.cons_append]

theorem wf_addEdge {g : Graph} (u v : String) (d : EdgeData) (h : WF g) :
    WF (addEdge g u v d) := by
  have h1 : WF (ensureNode (ensureNode g u) v) := wf_ensureNode v (wf_ensureNode u h)
  constructor
  · rw [nodes_addEdge_eq]
    exact h1.1
  · intro p hp
    unfold addEdge at hp
    obtain ⟨p0, hp0, hfp⟩ := List.mem_map.1 hp
    by_cases hu : p0.1 = u
    · rw [if_pos hu] at hfp
      rw [← hfp]
      show ((setOut p0.2 v d).map (fun q => q.1)).Nodup
      rw [keys_setOut]
      split
      · exact h1.2 p0 hp0
      · rename_i hv
        rw [List.nodup_append]
        exact ⟨h1.2 p0 hp0, List.nodup_singleton _,
          fun a ha hb => hv (List.mem_singleton.1 hb ▸ ha)⟩
    · rw [if_neg hu] at hfp
      rw [← hfp]
      exact h1.2 p0 hp0

theorem pairs_eq_flatMap (g : Graph) :
    g.pairs = g.adj.flatMap
      (fun p => (p.2.map (fun q => q.1)).map (fun k => (p.1, k))) := by
  unfold Graph.pairs Graph.edges
  rw [List.map_flatMap]
  congr 1
  funext p
  rw [List.map_map, List.map_map]
  rfl

theorem pairs_nodup_of_wf {g : Graph} (h : WF g) : g.pairs.Nodup := by
  rw [pairs_eq_flatMap, List.nodup_flatMap]
  constructor
  · intro p hp
    exact (h.2 p hp).map fun k1 k2 hk => by
      injection hk
  · have hkeys : (g.adj.map (fun p => p.1)).Pairwise (fun a b => a ≠ b) := h.1
    rw [List.pairwise_map] at hkeys
    refine hkeys.imp ?_
    intro p p' hne x hx hx'
    obtain ⟨k, _, hk⟩ := List.mem_map.1 hx
    obtain ⟨k', _, hk'⟩ := List.mem_map.1 hx'
    have : (p.1, k) = (p'.1, k') := hk.trans hk'.symm
    injection this with h1 _
    exact hne h1

theorem crawl_wf {env : Env} {maxD : Nat} {sn su : String} {g : Graph}
    {exp : List String} (h : runCrawl env maxD sn su = .ok (g, exp)) : WF g :=
  runCrawl_preserve
    (fun _ nm rn l uo dd _ hw => wf_addEdge nm rn ⟨l, uo, dd⟩ hw) h wf_empty

/-! ### The stored edge data after an upsert -/

theorem find?_ensureNode_of_some {g : Graph} {n a : String}
    {r : String × List (String × EdgeData)}
    (h : g.adj.find? (fun p => p.1 == a) = some r) :
    (ensureNode g n).adj.find? (fun p => p.1 == a) = some r := by
  unfold ensureNode
  split
  · exact h
  · rw [List.find?_append, h]
    rfl

theorem find?_ensureNode_self_of_none {g : Graph} {n : String}
    (h : g.adj.find? (fun p => p.1 == n) = none) :
    (ensureNode g n).adj.find? (fun p => p.1 == n) = some (n, []) := by
  unfold ensureNode
  split
  · rename_i hany
    exfalso
    rw [List.any_eq_true] at hany
    obtain ⟨p, hp, hpn⟩ := hany
    exact List.find?_eq_none.1 h p hp hpn
  · rw [List.find?_append, h]
    simp

theorem find?_ensureNode_other {g : Graph} {n a : String} (hne : ¬ a = n) :
    (ensureNode g n).adj.find? (fun p => p.1 == a) =
      g.adj.find? (fun p => p.1 == a) := by
  unfold ensureNode
  split
  · rfl
  · rw [List.find?_append]
    have hsing : List.find? (fun p => p.1 == a)
        [((n, []) : String × List (String × EdgeData))] = none := by
      apply List.find?_eq_none.2
      intro x hx
      rw [List.mem_singleton.1 hx]
      simp only [beq_iff_eq]
      exact fun hc => hne hc.symm
    rw [hsing, Option.or_none]

theorem find?_ensure2 (g : Graph) (u v a : String) :
    (ensureNode (ensureNode g u) v).adj.find? (fun p => p.1 == a) =
      match g.adj.find? (fun p => p.1 == a) with
      | some r => some r
      | none =>
          if a = u then some (a, []) else if a = v then some (a, []) else none := by
  cases hg : g.adj.find? (fun p => p.1 == a) with
  | some r => exact find?_ensureNode_of_some (find?_ensureNode_of_some hg)
  | none =>
    by_cases hau : a = u
    · subst hau
      rw [if_pos rfl]
      exact find?_ensureNode_of_some (find?_ensureNode_self_of_none hg)
    · have h1 : (ensureNode g u).adj.find? (fun p => p.1 == a) = none := by
        rw [find?_ensureNode_other hau, hg]
      rw [if_neg hau]
      by_cases hav : a = v
      · subst hav
        rw [if_pos rfl]
        exact find?_ensureNode_self_of_none h1
      · rw [if_neg hav, find?_ensureNode_other hav, h1]

theorem find?_adj_addEdge (g : Graph) (u v : String) (d : EdgeData) (a : String) :
    (addEdge g u v d).adj.find? (fun p => p.1 == a) =
      ((ensureNode (ensureNode g u) v).adj.find? (fun p => p.1 == a)).map
        (fun p => if p.1 = u then (p.1, setOut p.2 v d) else p) := by
  unfold addEdge
  rw [List.find?_map]
  have hpred : ((fun p : String × List (String × EdgeData) => p.1 == a) ∘
      (fun p => if p.1 = u then (p.1, setOut p.2 v d) else p)) =
      (fun p : String × List (String × EdgeData) => p.1 == a) := by
    funext p
    simp only [Function.comp]
    split <;> rfl
  rw [hpred]

theorem find?_setOut_self (outs : List (String × EdgeData)) (v : String)
    (d : EdgeData) :
    (setOut outs v d).find? (fun q => q.1 == v) = some (v, d) := by
  induction outs with
  | nil => simp [setOut]
  | cons we rest ih =>
    obtain ⟨w, e⟩ := we
    unfold setOut
    split
    · rename_i hw
      subst hw
      simp
    · rename_i hw
      rw [List.find?_cons_of_neg _ (by simpa using hw)]
      exact ih

theorem find?_setOut_other {outs : List (String × EdgeData)} {v b : String}
    {d : EdgeData} (h : ¬ b = v) :
    (setOut outs v d).find? (fun q => q.1 == b) =
      outs.find? (fun q => q.1 == b) := by
  induction outs with
  | nil =>
    simp only [setOut, List.find?_nil]
    rw [List.find?_cons_of_neg _ (by simpa using fun hc => h hc.symm)]
    rfl
  | cons we rest ih =>
    obtain ⟨w, e⟩ := we
    unfold setOut
    split
    · rename_i hw
      subst hw
      rw [List.find?_cons_of_neg _ (by simpa using fun hc => h hc.symm),
        List.find?_cons_of_neg _ (by simpa using fun hc => h hc.symm)]
    · by_cases hwb : w = b
      · subst hwb
        rw [List.find?_cons_of_pos _ (by simp), List.find?_cons_of_pos _ (by simp)]
      · rw [List.find?_cons_of_neg _ (by simpa using hwb),
          List.find?_cons_of_neg _ (by simpa using hwb)]
        exact ih

theorem lookupEdge_addEdge_self (g : Graph) (u v : String) (d : EdgeData) :
    lookupEdge (addEdge g u v d) u v = some d := by
  unfold lookupEdge
  rw [find?_adj_addEdge, find?_ensure2]
  cases hg : g.adj.find? (fun p => p.1 == u) with
  | some r =>
    have hr : r.1 = u := by simpa using List.find?_some hg
    simp [hr, find?_setOut_self]
  | none => simp [find?_setOut_self]

theorem lookupEdge_addEdge_other {g : Graph} (u v a b : String) (d : EdgeData)
    (h : ¬(a = u ∧ b = v)) :
    lookupEdge (addEdge g u v d) a b = lookupEdge g a b := by
  unfold lookupEdge
  rw [find?_adj_addEdge, find?_ensure2]
  cases hg : g.adj.find? (fun p => p.1 == a) with
  | some r =>
    have hr : r.1 = a := by simpa using List.find?_some hg
    by_cases hau : a = u
    · have hbv : ¬ b = v := fun hb => h ⟨hau, hb⟩
      simp [hr, hau, find?_setOut_other hbv]
    · simp [hr, hau]
  | none =>
    by_cases hau : a = u
    · subst hau
      have hbv : ¬ b = v := fun hb => h ⟨rfl, hb⟩
      have hvb : ¬ v = b := fun hc => hbv hc.symm
      simp [setOut, hvb]
    · by_cases hav : a = v
      · subst hav
        simp [hau]
      · simp [hau, hav]

/-- C6: during and after every crawl, at most one edge is retained per
ordered (source, target) pair; recording an edge for a pair that already has
one replaces that edge's stored label, URI and depth with the new values
while leaving every other pair's stored data unchanged (last-write-wins). -/
theorem claim6_one_edge_per_pair_lww :
    (∀ (env : Env) (maxD : Nat) (sn su : String) (g : Graph)
        (exp : List String), runCrawl env maxD sn su = .ok (g, exp) →
        g.pairs.Nodup) ∧
    (∀ (g : Graph) (u v : String) (d : EdgeData),
        lookupEdge (addEdge g u v d) u v = some d) ∧
    (∀ (g : Graph) (u v a b : String) (d : EdgeData), ¬(a = u ∧ b = v) →
        lookupEdge (addEdge g u v d) a b = lookupEdge g a b) := by
  refine ⟨?_, lookupEdge_addEdge_self,
    fun g u v a b d h => lookupEdge_addEdge_other u v a b d h⟩
  intro env maxD sn su g exp h
  exact pairs_nodup_of_wf (crawl_wf h)

/-- C6 witness: the multi-path crawl keeps one edge per pair, and a concrete
re-recording of the pair ("S", "B") replaces its stored metadata while
leaving the (absent) pair ("S", "X") unchanged. -/
theorem claim6_witness :
    (crawlGraph envMulti 3 "S" "r/s").pairs.Nodup ∧
    lookupEdge (addEdge graphA "S" "B" ⟨"L2", none, 5⟩) "S" "B" =
      some ⟨"L2", none, 5⟩ ∧
    lookupEdge (addEdge graphA "S" "B" ⟨"L2", none, 5⟩) "S" "X" =
      lookupEdge graphA "S" "X" :=
  ⟨claim6_one_edge_per_pair_lww.1 envMulti 3 "S" "r/s"
      (crawlGraph envMulti 3 "S" "r/s") ["s", "q1", "p1", "b1", "u1", "q2"] rfl,
   claim6_one_edge_per_pair_lww.2.1 graphA "S" "B" ⟨"L2", none, 5⟩,
   claim6_one_edge_per_pair_lww.2.2 graphA "S" "B" "S" "X" ⟨"L2", none, 5⟩
     (by decide)⟩

/-! ## Claim C8: the relationship listing and its round trip

Splitting a line at the first `" --> "` recovers the source provided the
source contains no `'>'` (an earlier or straddling occurrence of the
delimiter would need a `'>'` inside the source); likewise the first
`" (Relation: "` recovers the target provided it contains no `'('`. -/

theorem isPrefixOf_append_self : ∀ (l r : List Char), l.isPrefixOf (l ++ r) = true := by
  intro l r
  induction l with
  | nil => simp
  | cons c cs ih => simp [List.isPrefixOf, ih]

theorem splitOnce_here {sep rest : List Char} (h : sep ≠ []) :
    splitOnce sep (sep ++ rest) = some ([], rest) := by
  match sep with
  | [] => exact absurd rfl h
  | s :: ss =>
    rw [List.cons_append]
    unfold splitOnce
    rw [if_pos (by rw [← List.cons_append]; exact isPrefixOf_append_self _ _)]
    rw [← List.cons_append, List.drop_left]

theorem splitOnce_cons_of_neg {sep : List Char} {c : Char} {xs : List Char}
    (h : ¬ sep.isPrefixOf (c :: xs) = true) :
    splitOnce sep (c :: xs) =
      (splitOnce sep xs).map (fun p => (c :: p.1, p.2)) := by
  show (if sep.isPrefixOf (c :: xs) = true then
      some ([], List.drop sep.length (c :: xs))
    else (splitOnce sep xs).map (fun p => (c :: p.1, p.2))) =
    (splitOnce sep xs).map (fun p => (c :: p.1, p.2))
  rw [if_neg h]

theorem sep1_no_early_match {c : Char} {u' rest : List Char}
    (hu : '>' ∉ c :: u') :
    ¬ sep1.isPrefixOf (c :: (u' ++ (sep1 ++ rest))) = true := by
  match u' with
  | [] =>
    intro hpre
    simp only [sep1, List.nil_append, List.cons_append, List.isPrefixOf,
      Bool.and_eq_true, beq_iff_eq] at hpre
    exact absurd hpre.2.1 (by decide)
  | [a] =>
    intro hpre
    simp only [sep1, List.nil_append, List.cons_append, List.isPrefixOf,
      Bool.and_eq_true, beq_iff_eq] at hpre
    exact absurd hpre.2.2.1 (by decide)
  | [a, b] =>
    intro hpre
    simp only [sep1, List.nil_append, List.cons_append, List.isPrefixOf,
      Bool.and_eq_true, beq_iff_eq] at hpre
    exact absurd hpre.2.2.2.1 (by decide)
  | a :: b :: e :: t =>
    intro hpre
    simp only [sep1, List.cons_append, List.isPrefixOf, Bool.and_eq_true,
      beq_iff_eq] at hpre
    exact hu (by rw [hpre.2.2.2.1]; simp)

theorem splitOnce_sep1_append {u rest : List Char} (hu : '>' ∉ u) :
    splitOnce sep1 (u ++ (sep1 ++ rest)) = some (u, rest) := by
  induction u with
  | nil =>
    rw [List.nil_append]
    exact splitOnce_here (by decide)
  | cons c u' ih =>
    rw [List.cons_append, splitOnce_cons_of_neg (sep1_no_early_match hu)]
    rw [ih fun hm => hu (List.mem_cons_of_mem _ hm)]
    rfl

theorem sep2_no_early_match {c : Char} {v' rest : List Char}
    (hv : '(' ∉ c :: v') :
    ¬ sep2.isPrefixOf (c :: (v' ++ (sep2 ++ rest))) = true := by
  match v' with
  | [] =>
    intro hpre
    simp only [sep2, List.nil_append, List.cons_append, List.isPrefixOf,
      Bool.and_eq_true, beq_iff_eq] at hpre
    exact absurd hpre.2.1 (by decide)
  | a :: t =>
    intro hpre
    simp only [sep2, List.cons_append, List.isPrefixOf, Bool.and_eq_true,
      beq_iff_eq] at hpre
    exact hv (by rw [hpre.2.1]; simp)

theorem splitOnce_sep2_append {v rest : List Char} (hv : '(' ∉ v) :
    splitOnce sep2 (v ++ (sep2 ++ rest)) = some (v, rest) := by
  induction v with
  | nil =>
    rw [List.nil_append]
    exact splitOnce_here (by decide)
  | cons c v' ih =>
    rw [List.cons_append, splitOnce_cons_of_neg (sep2_no_early_match hv)]
    rw [ih fun hm => hv (List.mem_cons_of_mem _ hm)]
    rfl

theorem parseLineChars_format {u v l : List Char} (hu : '>' ∉ u)
    (hv : '(' ∉ v) :
    parseLineChars (u ++ (sep1 ++ (v ++ (sep2 ++ (l ++ [')']))))) =
      some (u, v, l) := by
  simp only [parseLineChars, splitOnce_sep1_append hu, splitOnce_sep2_append hv,
    List.getLast?_concat, List.dropLast_concat]

theorem formatLine_data (u v l : String) :
    (formatLine u v l).data =
      u.data ++ (sep1 ++ (v.data ++ (sep2 ++ (l.data ++ [')'])))) := by
  unfold formatLine
  simp only [String.data_append, List.append_assoc]
  rfl

theorem parseLine_formatLine {u v l : String} (hu : '>' ∉ u.data)
    (hv : '(' ∉ v.data) :
    parseLine (formatLine u v l) = some (u, v, l) := by
  unfold parseLine
  rw [formatLine_data, parseLineChars_format hu hv]
  rfl

/-- C8 counterexample: two completed crawls whose final graphs carry
different (source, target, label) triples — seed `"A --> B"` with child `"C"`
versus seed `"A"` with child `"B --> C"` — serialize to the identical
one-line listing, so no parse of the listing recovers the originating triples
of both graphs. -/
theorem claim8_counterexample :
    relationshipLines (crawlGraph envPlainChild 0 "A --> B" "r/x") =
      relationshipLines (crawlGraph envArrowChild 0 "A" "r/x") ∧
    edgeTriples (crawlGraph envPlainChild 0 "A --> B" "r/x") ≠
      edgeTriples (crawlGraph envArrowChild 0 "A" "r/x") := by
  refine ⟨rfl, ?_⟩
  decide

/-- C8 (amended): the listing has exactly one line per edge, in edge
iteration order, of the form `"{source} --> {target} (Relation: {label})"`;
and provided no source name contains the character `'>'` and no target name
contains `'('`, parsing each line back (splitting at the first `" --> "` and
first `" (Relation: "` and stripping the final `")"`) recovers exactly the
(source, target, label) triples of the originating graph, in order. -/
theorem claim8_listing_roundtrip (g : Graph)
    (hclean : ∀ e ∈ g.edges, '>' ∉ e.1.data ∧ '(' ∉ e.2.1.data) :
    relationshipLines g =
      g.edges.map (fun e =>
        e.1 ++ " --> " ++ e.2.1 ++ " (Relation: " ++ e.2.2.label ++ ")") ∧
    (relationshipLines g).map parseLine = (edgeTriples g).map some := by
  refine ⟨rfl, ?_⟩
  unfold relationshipLines edgeTriples
  rw [List.map_map, List.map_map]
  refine List.map_congr_left ?_
  intro e he
  simp only [Function.comp]
  exact parseLine_formatLine (hclean e he).1 (hclean e he).2

/-- C8 witness: the one-edge graph of the `envA` crawl round-trips. -/
theorem claim8_witness :
    relationshipLines graphA =
      graphA.edges.map (fun e =>
        e.1 ++ " --> " ++ e.2.1 ++ " (Relation: " ++ e.2.2.label ++ ")") ∧
    (relationshipLines graphA).map parseLine = (edgeTriples graphA).map some :=
  claim8_listing_roundtrip graphA (by decide)

end UmlsApp
